import Mathlib

/-!
Verification of the QAOA helper utilities (`QAOA_funcs.py`) and the circuit
block library (`templates/blocks.py`) of this repository against their
specification.

Numeric values are modelled by rationals (`ℚ`), standing for the real
arithmetic the spec reasons about.  NumPy 2-D arrays are modelled by `NpMat`
(an explicit row/column count plus an entry function), since numpy arrays
carry their shape even when one dimension is zero.  Python exceptions are
modelled by `Except PyErr`.
-/

/-- Python exceptions relevant to this code: `IndexError` (out-of-range
access) and `ValueError` (raised by the explicit squareness check). -/
inductive PyErr where
  | indexError : PyErr
  | valueError : PyErr
  | nameError : PyErr
deriving DecidableEq, Repr

instance {ε α : Type _} [DecidableEq ε] [DecidableEq α] : DecidableEq (Except ε α) := fun x y =>
  match x, y with
  | .error a, .error b =>
    if h : a = b then .isTrue (by rw [h]) else .isFalse (by simp [h])
  | .error _, .ok _ => .isFalse (by simp)
  | .ok _, .error _ => .isFalse (by simp)
  | .ok a, .ok b =>
    if h : a = b then .isTrue (by rw [h]) else .isFalse (by simp [h])

/-- A NumPy 2-D array: a number of rows, a number of columns, and an entry
function (only indices below the bounds are meaningful). -/
structure NpMat where
  rows : ℕ
  cols : ℕ
  entry : ℕ → ℕ → ℚ

/-- Row `i` of the matrix as a list (`Q[i]` in numpy). -/
def NpMat.row (M : NpMat) (i : ℕ) : List ℚ :=
  (List.range M.cols).map (M.entry i)

/-- `np.sum(Q, axis=1)` at row `i`: the sum of row `i`. -/
def rowSum (M : NpMat) (i : ℕ) : ℚ :=
  (M.row i).sum

/-- `np.triu(Q, 0).sum()`: the sum of the entries on or above the diagonal
(row `i` contributes its entries at columns `j ≥ i`). -/
def triuSum (M : NpMat) : ℚ :=
  ((List.range M.rows).map (fun i => ((List.range' i (M.cols - i)).map (M.entry i)).sum)).sum

/-- The single-qubit Pauli indicator built in the first loop of
`QUBO_to_Ising`: `term = np.zeros(n); term[i] = 1`. -/
def indicator1 (n i : ℕ) : List ℚ :=
  (List.range n).map (fun l => if l = i then 1 else 0)

/-- The two-qubit Pauli indicator built in the second loop of
`QUBO_to_Ising`: `term = np.zeros(n); term[i] = 1; term[j] = 1`. -/
def indicator2 (n i j : ℕ) : List ℚ :=
  (List.range n).map (fun l => if l = i ∨ l = j then 1 else 0)

/-- The index pairs visited by the double loop
`for i in range(n-1): for j in range(i+1, n)` of `QUBO_to_Ising`,
in execution order. -/
def upperPairs (n : ℕ) : List (ℕ × ℕ) :=
  (List.range (n - 1)).flatMap (fun i => (List.range' (i + 1) (n - 1 - i)).map (fun j => (i, j)))

/-- `QUBO_to_Ising(Q)` from `QAOA_funcs.py`.

* `n = Q.shape[0]`;
* `Q[0]` raises `IndexError` when the array has no rows;
* `if Q[0].shape[0] != n: raise ValueError(...)`;
* `offset = np.triu(Q, 0).sum() / 2`;
* `weights` starts as `-np.sum(Q, axis=1) / 2` and the double loop appends
  `Q[i][j] / 2` for each pair `i < j`;
* `pauli_terms` collects the single-qubit indicators, then the two-qubit
  indicators, in loop order. -/
def QUBO_to_Ising (M : NpMat) : Except PyErr (List (List ℚ) × List ℚ × ℚ) :=
  let n := M.rows
  if M.rows = 0 then .error .indexError
  else if M.cols ≠ n then .error .valueError
  else
    let offset := triuSum M / 2
    let weights1 := (List.range n).map (fun i => -(rowSum M i) / 2)
    let pauli1 := (List.range n).map (fun i => indicator1 n i)
    let pauli2 := (upperPairs n).map (fun p => indicator2 n p.1 p.2)
    let weights2 := (upperPairs n).map (fun p => M.entry p.1 p.2 / 2)
    .ok (pauli1 ++ pauli2, weights1 ++ weights2, offset)

/-- Spec-side: the pairs `(i, j)` with `i < j < n` in row-major order
(increasing `i`, then increasing `j`), written from the spec's words. -/
def specPairs (n : ℕ) : List (ℕ × ℕ) :=
  (List.range n).flatMap (fun i => ((List.range n).filter (fun j => i < j)).map (fun j => (i, j)))

/-- Spec-side: the sum of the upper-triangular entries of `Q` including the
diagonal, as a `Finset` sum. -/
def triuFin (M : NpMat) : ℚ :=
  ∑ i ∈ Finset.range M.rows, ∑ j ∈ Finset.Ico i M.cols, M.entry i j

/-- The 0/1 value of a binary vector `x` at position `i`. -/
def xv (x : ℕ → Bool) (i : ℕ) : ℚ :=
  if x i then 1 else 0

/-- The classical Z-value of qubit `i` in the computational state `x`:
`z_i = 1 - 2 * x_i`. -/
def zv (x : ℕ → Bool) (i : ℕ) : ℚ :=
  1 - 2 * xv x i

/-- The product of the classical Z-values of the qubits marked (entry `= 1`)
in the indicator vector `t`. -/
def termVal (x : ℕ → Bool) (t : List ℚ) : ℚ :=
  (((List.range t.length).filter (fun l => t.getD l 0 = 1)).map (fun l => zv x l)).prod

/-- The quadratic form `xᵀ Q x` of a binary vector `x` (spec-side). -/
def quadForm (M : NpMat) (x : ℕ → Bool) : ℚ :=
  ∑ i ∈ Finset.range M.rows, ∑ j ∈ Finset.range M.rows, M.entry i j * xv x i * xv x j

/-- The reconstruction value of claim C1: the offset plus the sum over all
terms of the weight times the product of classical Z-values of the marked
qubits. -/
def recon (x : ℕ → Bool) (terms : List (List ℚ)) (weights : List ℚ) (offset : ℚ) : ℚ :=
  offset + ((terms.zip weights).map (fun p => p.2 * termVal x p.1)).sum

/-- Spec-side: the Pauli-term list exactly as the spec describes it:
`n` single-qubit indicators followed by the two-qubit indicators for the
upper-triangular pairs in row-major order. -/
def specTerms (n : ℕ) : List (List ℚ) :=
  (List.range n).map (fun i => indicator1 n i) ++
    (specPairs n).map (fun p => indicator2 n p.1 p.2)

/-- Spec-side: the weight list exactly as the spec describes it:
`-sum(Q[i, :]) / 2` for single-qubit term `i`, then `Q[i, j] / 2` for each
upper-triangular pair `(i, j)` in row-major order. -/
def specWeights (M : NpMat) : List ℚ :=
  (List.range M.rows).map (fun i => -(rowSum M i) / 2) ++
    (specPairs M.rows).map (fun p => M.entry p.1 p.2 / 2)

/-- The spec's worked 2×2 example `Q = [[1,2],[2,3]]`, used as a concrete
witness input. -/
def Qex : NpMat :=
  ⟨2, 2, fun i j => if i = 0 ∧ j = 0 then 1 else if i = 1 ∧ j = 1 then 3 else 2⟩

/-- The circuit interface used by `Ising_loss`: `c.expectation_ps(z=[...])`,
the Pauli-Z expectation value on a list of qubit indices.  The circuit is
opaque to the loss function, which only queries this interface, so the model
is the query function itself.  Expectations are real in the model, so the
final `np.real` is the identity. -/
structure CircuitE where
  expZ : List ℕ → ℚ

/-- `index_of_ones` built by the loop of `Ising_loss`: the positions `l`
with `term[l] == 1`. -/
def index_of_ones (term : List ℚ) : List ℕ :=
  (List.range term.length).filter (fun l => term.getD l 0 = 1)

/-- The body of one `Ising_loss` iteration after `index_of_ones` is built
and `weights[k]` has been read: a single-qubit expectation when exactly one
qubit is marked, otherwise the accesses `index_of_ones[0]` and
`index_of_ones[1]` (an `IndexError` when the term marks no qubit). -/
def termDelta (c : CircuitE) (w : ℚ) (ios : List ℕ) : Except PyErr ℚ :=
  if ios.length = 1 then
    .ok (w * c.expZ [ios.headI])
  else
    match ios[0]?, ios[1]? with
    | some a, some b => .ok (w * c.expZ [a, b])
    | _, _ => .error .indexError

/-- The loop `for k in range(len(pauli_terms))` of `Ising_loss`; `weights[k]`
is read before the expectation call is evaluated. -/
def lossLoop (c : CircuitE) (weights : List ℚ) :
    List (List ℚ) → ℕ → ℚ → Except PyErr ℚ
  | [], _, acc => .ok acc
  | t :: ts, k, acc =>
    match weights[k]? with
    | none => .error .indexError
    | some w =>
      match termDelta c w (index_of_ones t) with
      | .error e => .error e
      | .ok d => lossLoop c weights ts (k + 1) (acc + d)

/-- `Ising_loss(c, pauli_terms, weights)` from `QAOA_funcs.py`. -/
def Ising_loss (c : CircuitE) (pauli_terms : List (List ℚ)) (weights : List ℚ) :
    Except PyErr ℚ :=
  lossLoop c weights pauli_terms 0 0

/-- Gates appended by the block constructors of `templates/blocks.py`:
`c.exp1(e1, e2, unitary=G._zz_matrix, theta=..)` and `c.rx(n, theta=..)`. -/
inductive GateOp where
  | exp1zz (a b : ℕ) (theta : ℚ) : GateOp
  | rx (n : ℕ) (theta : ℚ) : GateOp
deriving DecidableEq, Repr

/-- The mutable circuit object of the block library, tracked by the ordered
list of gates appended to it. -/
structure CircuitC where
  gates : List GateOp
deriving DecidableEq, Repr

/-- A graph as consumed by `QAOA_block`: edge and node lists in iteration
order. -/
structure GraphM where
  edges : List (ℕ × ℕ)
  nodes : List ℕ

/-- `backend.sizen(param)`: the element count of a parameter tensor
(modelled as a flat list). -/
def sizen (t : List ℚ) : ℕ := t.length

/-- The indexed edge loop of `QAOA_block`
(`c.exp1(e1, e2, theta=paramzz[i]); i += 1`); indexing past the end of the
tensor is an `IndexError`. -/
def zzLoop (p : List ℚ) : List (ℕ × ℕ) → ℕ → Except PyErr (List GateOp)
  | [], _ => .ok []
  | e :: es, i =>
    match p[i]? with
    | none => .error .indexError
    | some θ =>
      match zzLoop p es (i + 1) with
      | .error er => .error er
      | .ok gs => .ok (.exp1zz e.1 e.2 θ :: gs)

/-- The indexed node loop of `QAOA_block` (`c.rx(n, theta=paramx[i]); i += 1`). -/
def rxLoop (p : List ℚ) : List ℕ → ℕ → Except PyErr (List GateOp)
  | [], _ => .ok []
  | nd :: nds, i =>
    match p[i]? with
    | none => .error .indexError
    | some θ =>
      match rxLoop p nds (i + 1) with
      | .error er => .error er
      | .ok gs => .ok (.rx nd θ :: gs)

/-- `QAOA_block(c, g, paramzz, paramx)` from `templates/blocks.py`: ZZ
rotations over the edges (one shared angle when `sizen(paramzz) == 1`, else
`paramzz[i]` for the `i`-th edge), then X rotations over the nodes with the
same broadcasting rule for `paramx`.  A size-1 tensor passed whole as
`theta` stands for its single scalar entry (`headI`). -/
def QAOA_block (c : CircuitC) (g : GraphM) (paramzz paramx : List ℚ) :
    Except PyErr CircuitC :=
  let zzRes := if sizen paramzz = 1 then
      .ok (g.edges.map (fun e => GateOp.exp1zz e.1 e.2 paramzz.headI))
    else zzLoop paramzz g.edges 0
  let xRes := if sizen paramx = 1 then
      .ok (g.nodes.map (fun nd => GateOp.rx nd paramx.headI))
    else rxLoop paramx g.nodes 0
  match zzRes, xRes with
  | .ok zz, .ok xs => .ok ⟨c.gates ++ zz ++ xs⟩
  | .error e, _ => .error e
  | .ok _, .error e => .error e

/-- A backend tensor, tracked by its shape and payload. -/
structure TensorM where
  shape : List ℕ
  data : List ℚ
deriving DecidableEq, Repr

/-- The external numerical backend bound to the name `K`: value-and-gradient
transform, vectorized transform (`tc.backend.vvag`), JIT compilation,
Gaussian initialization (`implicit_randn`), and the Adam-optimizer update.
All are opaque external capabilities; theorems assume only their documented
contracts (shapes of `randn` outputs, shape preservation of `update`). -/
structure BackendM where
  valueAndGrad : (TensorM → ℚ) → TensorM → ℚ × TensorM
  vvag : (TensorM → ℚ × TensorM) → TensorM → ℚ × TensorM
  jit : (TensorM → ℚ × TensorM) → TensorM → ℚ × TensorM
  randn : List ℕ → ℚ → TensorM
  optUpdate : TensorM → TensorM → TensorM

/-- Observable events of `QUBO_QAOA` and `print_result_prob`. -/
inductive Ev where
  | msg : Ev          -- the hint "select a backend and assign it to K." printed
  | isingConv : Ev    -- QUBO_to_Ising completed
  | paramInit : Ev    -- one K.implicit_randn parameter initialization
  | lossGradEval : Ev -- one evaluation of the jitted value-and-grad function
  | optStep : Ev      -- one opt.update parameter update
  | lossPrint : Ev    -- the every-100-iterations loss print
  | probQuery : Ev    -- c.probability() queried
deriving DecidableEq, Repr

/-- The optimization loop `for i in range(iterations)` of `QUBO_QAOA`:
evaluate loss and gradients, update the parameters, print the loss when
`i % 100 == 0`; returns the event trace and the final parameters. -/
def QAOAloop (step : TensorM → ℚ × TensorM) (upd : TensorM → TensorM → TensorM) :
    ℕ → ℕ → TensorM → List Ev × TensorM
  | 0, _, params => ([], params)
  | m + 1, i, params =>
    let lg := step params
    let params2 := upd lg.2 params
    let rest := QAOAloop step upd m (i + 1) params2
    (([Ev.lossGradEval, Ev.optStep] ++ (if i % 100 = 0 then [Ev.lossPrint] else []))
        ++ rest.1,
      rest.2)

/-- `QUBO_QAOA(Q, ansatz, nlayers, iterations, vvag, ncircuits)` with the
process-wide backend binding `K` made explicit (`none` models the unbound
name).  The `try: K except NameError:` block only prints the hint and falls
through; `QUBO_to_Ising(Q)` then runs regardless, and when `K` is unbound the
first real use of `K` (`K.value_and_grad`, before any parameter
initialization) raises an unhandled `NameError`.  With a backend bound, the
parameters are initialized with shape `[2*nlayers]` (stddev 0.5), replaced
under `vvag=True` by shape `[ncircuits, 2*nlayers]` (stddev 0.1), and the
loop runs exactly `iterations` times with no convergence check. -/
def QUBO_QAOA_run (K : Option BackendM) (Q : NpMat)
    (ansatz : ℕ → List (List ℚ) → List ℚ → TensorM → ℚ)
    (nlayers iterations : ℕ) (vvag : Bool) (ncircuits : ℕ) :
    List Ev × Except PyErr TensorM :=
  let pre : List Ev := match K with | none => [.msg] | some _ => []
  match QUBO_to_Ising Q with
  | .error e => (pre, .error e)
  | .ok (pauli_terms, weights, _offset) =>
    match K with
    | none => (pre ++ [.isingConv], .error .nameError)
    | some b =>
      let lvg := b.valueAndGrad (ansatz nlayers pauli_terms weights)
      let params := b.randn [2 * nlayers] (1 / 2)
      let lvg2 := if vvag then b.vvag lvg else lvg
      let params2 := if vvag then b.randn [ncircuits, 2 * nlayers] (1 / 10) else params
      let lvgJit := b.jit lvg2
      let res := QAOAloop lvgJit b.optUpdate iterations 0 params2
      (pre ++ [.isingConv, .paramInit] ++ (if vvag then [.paramInit] else []) ++ res.1,
        .ok res.2)

/-- numpy's round-half-to-even at 4 decimal places (`.round(decimals=4)`). -/
def round4 (q : ℚ) : ℚ :=
  let y := q * 10000
  let f := Int.floor y
  let frac := y - f
  let r : ℤ := if frac < 1 / 2 then f
    else if 1 / 2 < frac then f + 1
    else if f % 2 = 0 then f else f + 1
  (r : ℚ) / 10000

/-- The zero-padded binary string of state `i` on `n` qubits
(`f"{bin(i)[2:]:0>{n_qubits}}"`), most significant bit first, one `Bool` per
character. -/
def stateStr (n i : ℕ) : List Bool :=
  (List.range n).map (fun k => Nat.testBit i (n - 1 - k))

/-- The `states` list: all `2**n_qubits` basis states in natural order. -/
def statesList (n : ℕ) : List (List Bool) :=
  (List.range (2 ^ n)).map (fun i => stateStr n i)

/-- A circuit as read by the reporting functions: `c._nqubits` and the
`c.probability()` vector. -/
structure CircuitM where
  nqubits : ℕ
  probs : List ℚ

/-- Stable ascending argsort of a value list, on the index list
`range(len(p))`.  `np.argsort`'s default introsort gives no tie-order
guarantee; the model uses the stable variant (`kind='stable'`), the reading
most favorable to the spec's tie-order claim. -/
def argsortStable (p : List ℚ) : List ℕ :=
  List.insertionSort (fun i j => p.getD i 0 ≤ p.getD j 0) (List.range p.length)

/-- The index order in which `print_result_prob` prints:
`sorted_indices = np.argsort(probs)[::-1]`, reversed once more when
`reverse == True`. -/
def probIdxOrder (c : CircuitM) (reverse : Bool) : List ℕ :=
  let sorted_indices := (argsortStable (c.probs.map round4)).reverse
  if reverse then sorted_indices.reverse else sorted_indices

/-- A printed report row: a state row (binary string and value) or the
`"               ... ..."` ellipsis row.  The surrounding header/footer
dashes are fixed text common to every call and are not modelled. -/
inductive PLine where
  | entry (s : List Bool) (v : ℚ) : PLine
  | dots : PLine
deriving DecidableEq, Repr

/-- Whether a report row is a state entry (not the ellipsis). -/
def PLine.isEntry : PLine → Bool
  | .entry _ _ => true
  | .dots => false

/-- The rows printed by `print_result_prob(c, wrap, reverse)`, or the
`IndexError` the function raises.

* `np.array(states)[sorted_indices]` raises `IndexError` when some sorted
  index exceeds the states array — the indices enumerate
  `range(len(probs))`, so exactly when `len(probs) > 2**n_qubits`;
* without wrap, `for i in range(len(states))` indexes `state_sorted`
  (which has `len(probs)` rows) and raises `IndexError` past its end;
* with wrap, rows `0,1,2,3` are printed, then the ellipsis, then the rows
  at the *negative* indices `-4, -3, -2` (python `for i in range(-4, -1)`),
  i.e. positions `L-4, L-3, L-2` — the final position `L-1` is never
  printed, and every one of these accesses raises `IndexError` when the
  sorted order holds fewer than 4 rows. -/
def print_result_prob (c : CircuitM) (wrap reverse : Bool) : Except PyErr (List PLine) :=
  let states := statesList c.nqubits
  let order := probIdxOrder c reverse
  if states.length < order.length then .error .indexError
  else
    let state_sorted := order.map (fun k => states.getD k [])
    let prob_sorted := order.map (fun k => (c.probs.map round4).getD k 0)
    if wrap = false then
      if state_sorted.length < states.length then .error .indexError
      else .ok ((List.range states.length).map
        (fun i => PLine.entry (state_sorted.getD i []) (prob_sorted.getD i 0)))
    else
      if state_sorted.length < 4 then .error .indexError
      else .ok
        (((List.range 4).map
            (fun i => PLine.entry (state_sorted.getD i []) (prob_sorted.getD i 0)))
          ++ [PLine.dots]
          ++ ([state_sorted.length - 4, state_sorted.length - 3, state_sorted.length - 2].map
              (fun i => PLine.entry (state_sorted.getD i []) (prob_sorted.getD i 0))))

/-- `print_result_prob` with the backend binding `K` explicit: the
try/except prints the hint and falls through; the `states` list is built;
then evaluating `K.numpy` in `K.numpy(c.probability())` raises an unhandled
`NameError` — before `c.probability()` is ever queried. -/
def print_result_prob_run (K : Option BackendM) (c : CircuitM) (wrap reverse : Bool) :
    List Ev × Except PyErr (List PLine) :=
  match K with
  | none => ([.msg], .error .nameError)
  | some _ => ([.probQuery], print_result_prob c wrap reverse)

/-- `np.dot` of two equal-length vectors. -/
def dotL (a b : List ℚ) : ℚ := (List.zipWith (fun u v => u * v) a b).sum

/-- The 0/1 vector of a state string (`[int(bit) for bit in selection]`). -/
def stateVec (n i : ℕ) : List ℚ :=
  (stateStr n i).map (fun b => if b then 1 else 0)

/-- `np.dot(x, np.dot(Q, x))` for the state of index `i` on `n` qubits. -/
def costOf (Q : NpMat) (n i : ℕ) : ℚ :=
  dotL (stateVec n i) ((List.range Q.rows).map (fun r => dotL (Q.row r) (stateVec n i)))

/-- The key order of `sorted(cost_dict.items(), key=lambda item: item[1])`
over the naturally-ordered state dictionary: Python's `sorted` is stable, so
ties keep the natural state order; `reverse=True` re-sorts `cost_dict` with
the comparison flipped (ties again keep the natural order). -/
def costOrderIdx (Q : NpMat) (n : ℕ) (reverse : Bool) : List ℕ :=
  if reverse then
    List.insertionSort (fun i j => costOf Q n j ≤ costOf Q n i) (List.range (2 ^ n))
  else
    List.insertionSort (fun i j => costOf Q n i ≤ costOf Q n j) (List.range (2 ^ n))

/-- The rows printed by `print_result_cost(c, Q, wrap, reverse)`: one row
per state in cost order, stopping after 8 rows when `wrap == True`
(`if (num >= 8) & (wrap == True): break`).  The only datum read from the
circuit is `c._nqubits`. -/
def print_result_cost (c : CircuitM) (Q : NpMat) (wrap reverse : Bool) : List PLine :=
  let n := c.nqubits
  let rows := (costOrderIdx Q n reverse).map
    (fun i => PLine.entry (stateStr n i) (costOf Q n i))
  if wrap then rows.take 8 else rows

/-- The rows printed by `print_Q_cost(Q, wrap, reverse)`: the same body as
`print_result_cost` (identical headers, format strings and break logic in
the source), computed from `n_stocks = len(Q)` with no circuit argument. -/
def print_Q_cost (Q : NpMat) (wrap reverse : Bool) : List PLine :=
  let n := Q.rows
  let rows := (costOrderIdx Q n reverse).map
    (fun i => PLine.entry (stateStr n i) (costOf Q n i))
  if wrap then rows.take 8 else rows

/-- Spec-side total order on state indices: ascending in the key, ties
broken by the natural state order (ascending index).  A list sorted by this
relation is exactly "sorted by key with ties in natural enumeration
order". -/
def keyLexAsc (key : ℕ → ℚ) (i j : ℕ) : Prop :=
  key i < key j ∨ (key i = key j ∧ i ≤ j)

/-- Spec-side total order on state indices: descending in the key, ties
broken by the natural state order (ascending index). -/
def keyLexDesc (key : ℕ → ℚ) (i j : ℕ) : Prop :=
  key j < key i ∨ (key i = key j ∧ i ≤ j)

instance (key : ℕ → ℚ) : DecidableRel (keyLexAsc key) := fun a b =>
  inferInstanceAs (Decidable (key a < key b ∨ (key a = key b ∧ a ≤ b)))

instance (key : ℕ → ℚ) : DecidableRel (keyLexDesc key) := fun a b =>
  inferInstanceAs (Decidable (key b < key a ∨ (key a = key b ∧ a ≤ b)))

instance (key : ℕ → ℚ) : IsTotal ℕ (keyLexAsc key) :=
  ⟨by
    intro a b
    rcases lt_trichotomy (key a) (key b) with h | h | h
    · exact Or.inl (Or.inl h)
    · rcases Nat.le_total a b with hab | hab
      · exact Or.inl (Or.inr ⟨h, hab⟩)
      · exact Or.inr (Or.inr ⟨h.symm, hab⟩)
    · exact Or.inr (Or.inl h)⟩

instance (key : ℕ → ℚ) : IsTrans ℕ (keyLexAsc key) :=
  ⟨by
    intro a b c hab hbc
    rcases hab with h1 | ⟨h1, h1'⟩ <;> rcases hbc with h2 | ⟨h2, h2'⟩
    · exact Or.inl (lt_trans h1 h2)
    · exact Or.inl (h2 ▸ h1)
    · exact Or.inl (h1 ▸ h2)
    · exact Or.inr ⟨h1.trans h2, le_trans h1' h2'⟩⟩

instance (key : ℕ → ℚ) : IsTotal ℕ (keyLexDesc key) :=
  ⟨by
    intro a b
    rcases lt_trichotomy (key a) (key b) with h | h | h
    · exact Or.inr (Or.inl h)
    · rcases Nat.le_total a b with hab | hab
      · exact Or.inl (Or.inr ⟨h, hab⟩)
      · exact Or.inr (Or.inr ⟨h.symm, hab⟩)
    · exact Or.inl (Or.inl h)⟩

instance (key : ℕ → ℚ) : IsTrans ℕ (keyLexDesc key) :=
  ⟨by
    intro a b c hab hbc
    rcases hab with h1 | ⟨h1, h1'⟩ <;> rcases hbc with h2 | ⟨h2, h2'⟩
    · exact Or.inl (lt_trans h2 h1)
    · exact Or.inl (h2 ▸ h1)
    · exact Or.inl (h1 ▸ h2)
    · exact Or.inr ⟨h1.trans h2, le_trans h1' h2'⟩⟩

/-- A concrete backend instance used by witnesses: identity-like transforms,
zero-filled tensors of the requested shape, and an update returning the
parameters unchanged. -/
def Bex : BackendM :=
  ⟨fun f p => (f p, p), fun g => g, fun g => g, fun s _ => ⟨s, []⟩, fun _ p => p⟩

/-! ## Theorems -/

-- sanity check on the spec's own worked example Q = [[1,2],[2,3]]
example :
    QUBO_to_Ising ⟨2, 2, fun i j => if i = 0 ∧ j = 0 then 1 else if i = 1 ∧ j = 1 then 3 else 2⟩ =
      .ok ([[1, 0], [0, 1], [1, 1]], [-3/2, -5/2, 1], 3) := by
  norm_num [QUBO_to_Ising, triuSum, rowSum, NpMat.row, indicator1, indicator2, upperPairs,
    List.range_succ, List.range'_concat]

/-- List-to-Finset bridge for sums over `List.range`. -/
theorem list_sum_range_map {M : Type _} [AddCommMonoid M] (f : ℕ → M) (n : ℕ) :
    ((List.range n).map f).sum = ∑ i ∈ Finset.range n, f i := by
  induction n with
  | zero => simp
  | succ n ih =>
    rw [List.range_succ, List.map_append, List.sum_append, Finset.sum_range_succ, ih]
    simp

/-- List-to-Finset bridge for sums over `List.range'`. -/
theorem list_sum_range'_map {M : Type _} [AddCommMonoid M] (f : ℕ → M) (a b : ℕ) :
    ((List.range' a b).map f).sum = ∑ j ∈ Finset.Ico a (a + b), f j := by
  induction b with
  | zero => simp
  | succ b ih =>
    rw [List.range'_concat, List.map_append, List.sum_append, ih]
    rw [show a + (b + 1) = (a + b) + 1 from rfl, Finset.sum_Ico_succ_top (by omega)]
    simp

/-- Filtering `range n` to the indices above `i` yields `range' (i+1) (n-(i+1))`. -/
theorem filter_lt_range (n i : ℕ) :
    (List.range n).filter (fun j => i < j) = List.range' (i + 1) (n - (i + 1)) := by
  induction n with
  | zero => simp
  | succ n ih =>
    rw [List.range_succ, List.filter_append, ih]
    by_cases h : i < n
    · have h1 : n + 1 - (i + 1) = (n - (i + 1)) + 1 := by omega
      rw [h1, List.range'_concat]
      simp only [List.filter_cons, List.filter_nil, decide_eq_true_eq, if_pos h]
      congr 2
      omega
    · have h1 : n + 1 - (i + 1) = n - (i + 1) := by omega
      rw [h1]
      simp [h]

/-- The double loop of `QUBO_to_Ising` visits exactly the upper-triangular
pairs in row-major order. -/
theorem upperPairs_eq_specPairs (n : ℕ) : upperPairs n = specPairs n := by
  cases n with
  | zero => rfl
  | succ m =>
    have hfun : ∀ i, ((List.range (m + 1)).filter (fun j => i < j)).map (fun j => (i, j)) =
        (List.range' (i + 1) (m - i)).map (fun j => (i, j)) := by
      intro i
      rw [filter_lt_range, Nat.succ_sub_succ]
    rw [upperPairs, specPairs]
    rw [List.flatMap_congr (fun i _ => hfun i), List.range_succ, List.flatMap_append]
    simp only [List.flatMap_cons, List.flatMap_nil, List.append_nil, Nat.sub_self,
      List.range'_zero, List.map_nil, Nat.add_sub_cancel]

/-- The list-level `np.triu(Q, 0).sum()` equals the spec-side upper-triangular
`Finset` sum. -/
theorem triuSum_eq_triuFin (M : NpMat) : triuSum M = triuFin M := by
  rw [triuSum, triuFin, list_sum_range_map]
  refine Finset.sum_congr rfl (fun i _ => ?_)
  rw [list_sum_range'_map]
  apply Finset.sum_congr _ (fun j _ => rfl)
  apply Finset.ext
  intro j
  simp only [Finset.mem_Ico]
  omega

/-- On a nonempty square matrix, `QUBO_to_Ising` succeeds and returns exactly
the spec-described terms, weights and offset. -/
theorem QUBO_to_Ising_ok (M : NpMat) (h1 : M.rows ≠ 0) (h2 : M.cols = M.rows) :
    QUBO_to_Ising M = .ok (specTerms M.rows, specWeights M, triuFin M / 2) := by
  rw [QUBO_to_Ising]
  simp only [if_neg h1, if_neg (not_not_intro h2)]
  rw [upperPairs_eq_specPairs, triuSum_eq_triuFin]
  rfl

/-- The flattened pair loop produces `n(n-1)/2` two-qubit terms. -/
theorem specPairs_length (n : ℕ) : 2 * (specPairs n).length = n * (n - 1) := by
  rw [specPairs, List.length_flatMap]
  have h1 : List.map
      (List.length ∘ fun i => ((List.range n).filter (fun j => i < j)).map (fun j => (i, j)))
      (List.range n) = (List.range n).map (fun i => n - (i + 1)) := by
    apply List.map_congr_left
    intro i _
    simp [Function.comp, filter_lt_range]
  rw [h1, list_sum_range_map]
  have h2 : ∑ i ∈ Finset.range n, (n - (i + 1)) = ∑ i ∈ Finset.range n, (n - 1 - i) :=
    Finset.sum_congr rfl (fun i _ => by omega)
  rw [h2, Finset.sum_range_reflect (fun i => i) n, mul_comm, Finset.sum_range_id_mul_two]

/-- The Pauli-term list has exactly `n(n+1)/2` entries. -/
theorem specTerms_length (n : ℕ) : (specTerms n).length = n * (n + 1) / 2 := by
  have h := specPairs_length n
  rw [specTerms, List.length_append, List.length_map, List.length_map, List.length_range]
  have hB : n * (n + 1) = n * (n - 1) + 2 * n := by
    cases n with
    | zero => rfl
    | succ m =>
      simp only [Nat.succ_sub_one]
      ring
  generalize hA : n * (n - 1) = A at h hB
  generalize hBv : n * (n + 1) = B at hB ⊢
  omega

/-- Counterexample to claim C2 as stated: the 0×0 matrix is square, but
`QUBO_to_Ising` does not return the (empty) term list the claim requires — the
access `Q[0]` fails with an `IndexError` before anything is computed. -/
theorem C2_counterexample :
    QUBO_to_Ising ⟨0, 0, fun _ _ => 0⟩ = .error .indexError := rfl

/-- Claim C2 (amended: the square matrix must have at least one row; the 0×0
matrix fails with an `IndexError` instead of returning). For every square
`n`-by-`n` matrix with `n ≥ 1`, `QUBO_to_Ising` returns the `n(n+1)/2` Pauli
terms — `n` single-qubit indicators followed by the upper-triangular pair
indicators `(i,j)` with `i < j` in row-major order — with aligned weights
`-sum(Q[i,:])/2` then `Q[i][j]/2`, and offset the upper-triangular sum of `Q`
(diagonal included) divided by 2. -/
theorem C2_theorem (M : NpMat) (h1 : 1 ≤ M.rows) (h2 : M.cols = M.rows) :
    QUBO_to_Ising M = .ok (specTerms M.rows, specWeights M, triuFin M / 2) ∧
      (specTerms M.rows).length = M.rows * (M.rows + 1) / 2 :=
  ⟨QUBO_to_Ising_ok M (by omega) h2, specTerms_length M.rows⟩

/-- Witness for C2_theorem at the spec's worked 2×2 example. -/
theorem C2_theorem_witness :
    1 ≤ Qex.rows ∧
      (QUBO_to_Ising Qex = .ok (specTerms Qex.rows, specWeights Qex, triuFin Qex / 2) ∧
        (specTerms Qex.rows).length = Qex.rows * (Qex.rows + 1) / 2) :=
  ⟨by decide, C2_theorem Qex (by decide) rfl⟩

/-- Counterexample to claim C8 as stated: a 0×3 matrix is not square, yet
`QUBO_to_Ising` raises `IndexError` (from the row access `Q[0]`), not the
claimed `ValueError`-equivalent. -/
theorem C8_counterexample :
    (NpMat.mk 0 3 fun _ _ => 0).rows ≠ (NpMat.mk 0 3 fun _ _ => 0).cols ∧
      QUBO_to_Ising ⟨0, 3, fun _ _ => 0⟩ = .error .indexError :=
  ⟨by decide, rfl⟩

/-- Claim C8 (amended: restricted to matrices with at least one row; on a
matrix with zero rows the row access `Q[0]` fails with an `IndexError` before
the squareness check). For every matrix with `rows ≥ 1`, `QUBO_to_Ising`
raises the `ValueError` if and only if the matrix is not square, and succeeds
if and only if it is square; the check depends only on the shape, before any
output is computed. -/
theorem C8_theorem (M : NpMat) (h1 : 1 ≤ M.rows) :
    (QUBO_to_Ising M = .error .valueError ↔ M.cols ≠ M.rows) ∧
      ((QUBO_to_Ising M).isOk = true ↔ M.cols = M.rows) := by
  have h0 : M.rows ≠ 0 := by omega
  by_cases hc : M.cols = M.rows
  · rw [QUBO_to_Ising_ok M h0 hc]
    simp [hc, Except.isOk, Except.toBool]
  · have herr : QUBO_to_Ising M = .error .valueError := by
      rw [QUBO_to_Ising, if_neg h0, if_pos hc]
    rw [herr]
    simp [hc, Except.isOk, Except.toBool]

/-- Witness for C8_theorem at a concrete 1×2 (non-square) matrix. -/
theorem C8_theorem_witness :
    1 ≤ (NpMat.mk 1 2 fun _ _ => 0).rows ∧
      ((QUBO_to_Ising ⟨1, 2, fun _ _ => 0⟩ = .error .valueError ↔
          (NpMat.mk 1 2 fun _ _ => 0).cols ≠ (NpMat.mk 1 2 fun _ _ => 0).rows) ∧
        ((QUBO_to_Ising ⟨1, 2, fun _ _ => 0⟩).isOk = true ↔
          (NpMat.mk 1 2 fun _ _ => 0).cols = (NpMat.mk 1 2 fun _ _ => 0).rows)) :=
  ⟨by decide, C8_theorem ⟨1, 2, fun _ _ => 0⟩ (by decide)⟩

/-- The entries of a single-qubit indicator. -/
theorem indicator1_getD (n i l : ℕ) (hl : l < n) :
    (indicator1 n i).getD l 0 = if l = i then 1 else 0 := by
  rw [indicator1, List.getD_eq_getElem?_getD, List.getElem?_map, List.getElem?_range hl]
  rfl

/-- The entries of a two-qubit indicator. -/
theorem indicator2_getD (n i j l : ℕ) (hl : l < n) :
    (indicator2 n i j).getD l 0 = if l = i ∨ l = j then 1 else 0 := by
  rw [indicator2, List.getD_eq_getElem?_getD, List.getElem?_map, List.getElem?_range hl]
  rfl

/-- A single-qubit indicator term evaluates to the Z-value of its qubit. -/
theorem termVal_indicator1 (x : ℕ → Bool) (n i : ℕ) (h : i < n) :
    termVal x (indicator1 n i) = zv x i := by
  rw [termVal]
  have hlen : (indicator1 n i).length = n := by simp [indicator1]
  rw [hlen]
  have hfc : (List.range n).filter (fun l => (indicator1 n i).getD l 0 = 1) =
      (List.range n).filter (fun l => l = i) := by
    apply List.filter_congr
    intro l hl
    rw [indicator1_getD n i l (List.mem_range.mp hl)]
    by_cases he : l = i <;> simp [he]
  rw [hfc, List.filter_eq, List.count_eq_one_of_mem (List.nodup_range n) (List.mem_range.mpr h)]
  simp

/-- Filtering `range n` down to the two indices `i < j`. -/
theorem filter_two_range (i j : ℕ) (hij : i < j) (n : ℕ) :
    (List.range n).filter (fun l => l = i ∨ l = j) =
      if j < n then [i, j] else if i < n then [i] else [] := by
  induction n with
  | zero => simp
  | succ n ih =>
    rw [List.range_succ, List.filter_append, ih]
    by_cases h1 : j < n
    · have h2 : i < n := lt_trans hij h1
      have h3 : ¬(n = i ∨ n = j) := by omega
      have h4 : j < n + 1 := by omega
      simp [h1, h2, h3, h4]
    · by_cases h2 : i < n
      · by_cases h5 : j = n
        · have h3 : (n = i ∨ n = j) := by omega
          have h4 : j < n + 1 := by omega
          simp [h1, h2, h3, h4]
          omega
        · have h3 : ¬(n = i ∨ n = j) := by omega
          have h4 : ¬(j < n + 1) := by omega
          have h6 : i < n + 1 := by omega
          simp [h1, h2, h3, h4, h6]
      · by_cases h5 : i = n
        · have h3 : (n = i ∨ n = j) := by omega
          have h4 : ¬(j < n + 1) := by omega
          have h6 : i < n + 1 := by omega
          have h7 : n = i := by omega
          have h8 : ¬j < i := by omega
          have h9 : ¬j < i + 1 := by omega
          simp [h1, h2, h3, h4, h6, h7, h8, h9]
        · have h3 : ¬(n = i ∨ n = j) := by omega
          have h4 : ¬(j < n + 1) := by omega
          have h6 : ¬(i < n + 1) := by omega
          simp [h1, h2, h3, h4, h6]

/-- A two-qubit indicator term evaluates to the product of the Z-values of its
two qubits. -/
theorem termVal_indicator2 (x : ℕ → Bool) (n i j : ℕ) (hij : i < j) (hj : j < n) :
    termVal x (indicator2 n i j) = zv x i * zv x j := by
  rw [termVal]
  have hlen : (indicator2 n i j).length = n := by simp [indicator2]
  rw [hlen]
  have hfc : (List.range n).filter (fun l => (indicator2 n i j).getD l 0 = 1) =
      (List.range n).filter (fun l => l = i ∨ l = j) := by
    apply List.filter_congr
    intro l hl
    rw [indicator2_getD n i j l (List.mem_range.mp hl)]
    by_cases he : l = i ∨ l = j <;> simp [he]
  rw [hfc, filter_two_range i j hij n, if_pos hj]
  simp [mul_assoc]

/-- Sum of a mapped flatMap, split into inner sums. -/
theorem sum_map_flatMap {α β : Type _} {M : Type _} [AddCommMonoid M]
    (l : List α) (g : α → List β) (f : β → M) :
    ((l.flatMap g).map f).sum = (l.map (fun a => ((g a).map f).sum)).sum := by
  induction l with
  | nil => rfl
  | cons a t ih => simp [List.flatMap_cons, List.map_append, List.sum_append, ih]

/-- The sum over the loop pairs of `QUBO_to_Ising` as a double `Finset` sum
over the strict upper triangle. -/
theorem sum_upperPairs (n : ℕ) (f : ℕ → ℕ → ℚ) :
    ((upperPairs n).map (fun p => f p.1 p.2)).sum =
      ∑ i ∈ Finset.range n, ∑ j ∈ Finset.Ico (i + 1) n, f i j := by
  rw [upperPairs, sum_map_flatMap]
  have hinner : ∀ i, (((List.range' (i + 1) (n - 1 - i)).map (fun j => (i, j))).map
      (fun p : ℕ × ℕ => f p.1 p.2)).sum = ∑ j ∈ Finset.Ico (i + 1) n, f i j := by
    intro i
    rw [List.map_map]
    rw [show ((fun p : ℕ × ℕ => f p.1 p.2) ∘ fun j => (i, j)) = fun j => f i j from rfl]
    rw [list_sum_range'_map]
    apply Finset.sum_congr _ (fun _ _ => rfl)
    apply Finset.ext
    intro j
    simp only [Finset.mem_Ico]
    omega
  rw [List.map_congr_left (fun i _ => hinner i), list_sum_range_map]
  cases n with
  | zero => simp
  | succ m =>
    rw [Finset.sum_range_succ]
    simp

/-- `np.sum(Q, axis=1)` as a `Finset` sum. -/
theorem rowSum_eq (M : NpMat) (i : ℕ) :
    rowSum M i = ∑ j ∈ Finset.range M.cols, M.entry i j := by
  rw [rowSum, NpMat.row, list_sum_range_map]

/-- The reconstruction sum of C1 evaluated on the spec-shaped outputs, as
`Finset` sums. -/
theorem recon_eq_sums (M : NpMat) (x : ℕ → Bool) :
    recon x (specTerms M.rows) (specWeights M) (triuFin M / 2) =
      triuFin M / 2
        + ∑ i ∈ Finset.range M.rows, (-(rowSum M i) / 2) * zv x i
        + ∑ i ∈ Finset.range M.rows, ∑ j ∈ Finset.Ico (i + 1) M.rows,
            (M.entry i j / 2) * (zv x i * zv x j) := by
  rw [recon, specTerms, specWeights]
  rw [List.zip_append (by simp)]
  rw [List.map_append, List.sum_append]
  rw [List.zip_map', List.zip_map', List.map_map, List.map_map]
  have h1 : ((List.range M.rows).map
      ((fun p : List ℚ × ℚ => p.2 * termVal x p.1) ∘
        fun i => (indicator1 M.rows i, -(rowSum M i) / 2))).sum =
      ∑ i ∈ Finset.range M.rows, (-(rowSum M i) / 2) * zv x i := by
    rw [list_sum_range_map]
    refine Finset.sum_congr rfl (fun i hi => ?_)
    simp only [Function.comp]
    rw [termVal_indicator1 x M.rows i (Finset.mem_range.mp hi)]
  have h2 : ((specPairs M.rows).map
      ((fun p : List ℚ × ℚ => p.2 * termVal x p.1) ∘
        fun p => (indicator2 M.rows p.1 p.2, M.entry p.1 p.2 / 2))).sum =
      ∑ i ∈ Finset.range M.rows, ∑ j ∈ Finset.Ico (i + 1) M.rows,
        (M.entry i j / 2) * (zv x i * zv x j) := by
    rw [← upperPairs_eq_specPairs]
    rw [show ((fun p : List ℚ × ℚ => p.2 * termVal x p.1) ∘
        fun p : ℕ × ℕ => (indicator2 M.rows p.1 p.2, M.entry p.1 p.2 / 2)) =
        fun p : ℕ × ℕ => (M.entry p.1 p.2 / 2) * termVal x (indicator2 M.rows p.1 p.2)
      from rfl]
    rw [sum_upperPairs M.rows
      (fun i j => (M.entry i j / 2) * termVal x (indicator2 M.rows i j))]
    refine Finset.sum_congr rfl (fun i _ => ?_)
    refine Finset.sum_congr rfl (fun j hj => ?_)
    have hj' := Finset.mem_Ico.mp hj
    rw [termVal_indicator2 x M.rows i j (by omega) (by omega)]
  rw [h1, h2]
  ring

/-- The algebraic heart of claim C1: for a symmetric `n×n` coefficient array
`q` and 0/1 values `xf`, the Ising form built from triangular sums and row
sums reproduces the quadratic form. -/
theorem core_identity (q : ℕ → ℕ → ℚ) (xf : ℕ → ℚ) (n : ℕ)
    (hsym : ∀ i j, i < n → j < n → q i j = q j i)
    (hx : ∀ i, xf i * xf i = xf i) :
    (∑ i ∈ Finset.range n, ∑ j ∈ Finset.Ico i n, q i j) / 2
      + ∑ i ∈ Finset.range n, (-(∑ j ∈ Finset.range n, q i j) / 2) * (1 - 2 * xf i)
      + ∑ i ∈ Finset.range n, ∑ j ∈ Finset.Ico (i + 1) n,
          (q i j / 2) * ((1 - 2 * xf i) * (1 - 2 * xf j))
    = ∑ i ∈ Finset.range n, ∑ j ∈ Finset.range n, q i j * xf i * xf j := by
  have H : ∀ m, m ≤ n →
      (∑ i ∈ Finset.range m, ∑ j ∈ Finset.Ico i m, q i j) / 2
        + ∑ i ∈ Finset.range m, (-(∑ j ∈ Finset.range m, q i j) / 2) * (1 - 2 * xf i)
        + ∑ i ∈ Finset.range m, ∑ j ∈ Finset.Ico (i + 1) m,
            (q i j / 2) * ((1 - 2 * xf i) * (1 - 2 * xf j))
      = ∑ i ∈ Finset.range m, ∑ j ∈ Finset.range m, q i j * xf i * xf j := by
    intro m
    induction m with
    | zero => intro _; simp
    | succ k ihk =>
      intro hk
      have ih := ihk (by omega)
      have ha : ∑ i ∈ Finset.range (k + 1), ∑ j ∈ Finset.Ico i (k + 1), q i j =
          (∑ i ∈ Finset.range k, ∑ j ∈ Finset.Ico i k, q i j)
            + (∑ i ∈ Finset.range k, q i k) + q k k := by
        rw [Finset.sum_range_succ]
        have h1 : ∀ i ∈ Finset.range k, ∑ j ∈ Finset.Ico i (k + 1), q i j =
            (∑ j ∈ Finset.Ico i k, q i j) + q i k := fun i hi =>
          Finset.sum_Ico_succ_top (le_of_lt (Finset.mem_range.mp hi)) _
        rw [Finset.sum_congr rfl h1, Finset.sum_add_distrib,
          Finset.sum_Ico_succ_top (le_refl k), Finset.Ico_self, Finset.sum_empty, zero_add]
      have hb : ∑ i ∈ Finset.range (k + 1),
            (-(∑ j ∈ Finset.range (k + 1), q i j) / 2) * (1 - 2 * xf i) =
          (∑ i ∈ Finset.range k, (-(∑ j ∈ Finset.range k, q i j) / 2) * (1 - 2 * xf i))
            + (∑ i ∈ Finset.range k, (-(q i k) / 2) * (1 - 2 * xf i))
            + (-((∑ j ∈ Finset.range k, q k j) + q k k) / 2) * (1 - 2 * xf k) := by
        rw [Finset.sum_range_succ]
        have h1 : ∀ i ∈ Finset.range k,
            (-(∑ j ∈ Finset.range (k + 1), q i j) / 2) * (1 - 2 * xf i) =
              (-(∑ j ∈ Finset.range k, q i j) / 2) * (1 - 2 * xf i)
                + (-(q i k) / 2) * (1 - 2 * xf i) := by
          intro i _
          rw [Finset.sum_range_succ]
          ring
        rw [Finset.sum_congr rfl h1, Finset.sum_add_distrib, Finset.sum_range_succ]
      have hc : ∑ i ∈ Finset.range (k + 1), ∑ j ∈ Finset.Ico (i + 1) (k + 1),
            (q i j / 2) * ((1 - 2 * xf i) * (1 - 2 * xf j)) =
          (∑ i ∈ Finset.range k, ∑ j ∈ Finset.Ico (i + 1) k,
              (q i j / 2) * ((1 - 2 * xf i) * (1 - 2 * xf j)))
            + ∑ i ∈ Finset.range k, (q i k / 2) * ((1 - 2 * xf i) * (1 - 2 * xf k)) := by
        rw [Finset.sum_range_succ]
        have h1 : ∀ i ∈ Finset.range k,
            ∑ j ∈ Finset.Ico (i + 1) (k + 1), (q i j / 2) * ((1 - 2 * xf i) * (1 - 2 * xf j)) =
              (∑ j ∈ Finset.Ico (i + 1) k, (q i j / 2) * ((1 - 2 * xf i) * (1 - 2 * xf j)))
                + (q i k / 2) * ((1 - 2 * xf i) * (1 - 2 * xf k)) := fun i hi =>
          Finset.sum_Ico_succ_top (Finset.mem_range.mp hi) _
        rw [Finset.sum_congr rfl h1, Finset.sum_add_distrib, Finset.Ico_self,
          Finset.sum_empty, add_zero]
      have hd : ∑ i ∈ Finset.range (k + 1), ∑ j ∈ Finset.range (k + 1), q i j * xf i * xf j =
          (∑ i ∈ Finset.range k, ∑ j ∈ Finset.range k, q i j * xf i * xf j)
            + (∑ i ∈ Finset.range k, q i k * xf i * xf k)
            + ((∑ j ∈ Finset.range k, q k j * xf k * xf j) + q k k * xf k * xf k) := by
        rw [Finset.sum_range_succ]
        have h1 : ∀ i ∈ Finset.range k,
            ∑ j ∈ Finset.range (k + 1), q i j * xf i * xf j =
              (∑ j ∈ Finset.range k, q i j * xf i * xf j) + q i k * xf i * xf k := by
          intro i _
          rw [Finset.sum_range_succ]
        rw [Finset.sum_congr rfl h1, Finset.sum_add_distrib, Finset.sum_range_succ]
      have e3 : ∑ j ∈ Finset.range k, q k j = ∑ i ∈ Finset.range k, q i k := by
        refine Finset.sum_congr rfl (fun j hj => ?_)
        exact hsym k j (by omega) (by have := Finset.mem_range.mp hj; omega)
      have e1 : ∑ i ∈ Finset.range k, (-(q i k) / 2) * (1 - 2 * xf i) =
          (∑ i ∈ Finset.range k, q i k * xf i)
            - (∑ i ∈ Finset.range k, q i k) * (1 / 2) := by
        have h1 : ∀ i ∈ Finset.range k, (-(q i k) / 2) * (1 - 2 * xf i) =
            q i k * xf i - q i k * (1 / 2) := fun i _ => by ring
        rw [Finset.sum_congr rfl h1, Finset.sum_sub_distrib, ← Finset.sum_mul]
      have e2 : ∑ i ∈ Finset.range k, (q i k / 2) * ((1 - 2 * xf i) * (1 - 2 * xf k)) =
          ((∑ i ∈ Finset.range k, q i k) * (1 / 2)
            - ∑ i ∈ Finset.range k, q i k * xf i) * (1 - 2 * xf k) := by
        have h1 : ∀ i ∈ Finset.range k, (q i k / 2) * ((1 - 2 * xf i) * (1 - 2 * xf k)) =
            (q i k * (1 / 2) - q i k * xf i) * (1 - 2 * xf k) := fun i _ => by ring
        rw [Finset.sum_congr rfl h1, ← Finset.sum_mul, Finset.sum_sub_distrib, ← Finset.sum_mul]
      have e4 : ∑ j ∈ Finset.range k, q k j * xf k * xf j =
          (∑ i ∈ Finset.range k, q i k * xf i) * xf k := by
        have h1 : ∀ j ∈ Finset.range k, q k j * xf k * xf j = q j k * xf j * xf k := by
          intro j hj
          rw [hsym k j (by omega) (by have := Finset.mem_range.mp hj; omega)]
          ring
        rw [Finset.sum_congr rfl h1, ← Finset.sum_mul]
      have e5 : ∑ i ∈ Finset.range k, q i k * xf i * xf k =
          (∑ i ∈ Finset.range k, q i k * xf i) * xf k := by
        rw [← Finset.sum_mul]
      rw [ha, hb, hc, hd, e1, e2, e3, e4, e5]
      linear_combination ih - q k k * hx k
  exact H n le_rfl

/-- Claim C1 (confirmed): for every symmetric matrix `Q` and every binary
vector `x`, whenever `QUBO_to_Ising Q` returns `(pauli_terms, weights,
offset)`, the offset plus the weighted sum of the products of classical
Z-values (`z_i = 1 - 2 x_i`) of the marked qubits equals `xᵀ Q x`. -/
theorem C1_theorem (M : NpMat)
    (hsym : ∀ i j, i < M.rows → j < M.rows → M.entry i j = M.entry j i)
    (x : ℕ → Bool) (terms : List (List ℚ)) (weights : List ℚ) (offset : ℚ)
    (hok : QUBO_to_Ising M = .ok (terms, weights, offset)) :
    recon x terms weights offset = quadForm M x := by
  have h1 : M.rows ≠ 0 := by
    intro h
    simp [QUBO_to_Ising, h] at hok
  have h2 : M.cols = M.rows := by
    by_contra hc
    simp [QUBO_to_Ising, h1, hc] at hok
  rw [QUBO_to_Ising_ok M h1 h2] at hok
  simp only [Except.ok.injEq, Prod.mk.injEq] at hok
  obtain ⟨ht, hw, ho⟩ := hok
  rw [← ht, ← hw, ← ho]
  rw [recon_eq_sums M x, quadForm]
  have hxx : ∀ i, xv x i * xv x i = xv x i := by
    intro i
    rw [xv]
    by_cases h : x i <;> simp [h]
  have hrow : ∀ i, rowSum M i = ∑ j ∈ Finset.range M.rows, M.entry i j := by
    intro i
    rw [rowSum_eq, h2]
  simp only [triuFin, h2, hrow, zv]
  exact core_identity M.entry (xv x) M.rows hsym hxx

/-- Witness for C1_theorem: the spec's 2×2 example with `x = (1,1)`. -/
theorem C1_theorem_witness :
    recon (fun _ => true) (specTerms Qex.rows) (specWeights Qex) (triuFin Qex / 2) =
      quadForm Qex (fun _ => true) :=
  C1_theorem Qex
    (by
      intro i j hi hj
      have hi2 : i < 2 := hi
      have hj2 : j < 2 := hj
      interval_cases i <;> interval_cases j <;> norm_num [Qex])
    (fun _ => true) _ _ _ (QUBO_to_Ising_ok Qex (by decide) rfl)

/-- If some term marks no qubit and the weights cover the remaining terms,
the `Ising_loss` loop fails. -/
theorem lossLoop_err (c : CircuitE) (weights : List ℚ) :
    ∀ (terms : List (List ℚ)) (k : ℕ) (acc : ℚ),
      k + terms.length ≤ weights.length →
      (∃ t ∈ terms, index_of_ones t = []) →
      (lossLoop c weights terms k acc).isOk = false := by
  intro terms
  induction terms with
  | nil =>
    intro k acc _ h
    simp at h
  | cons t ts ih =>
    intro k acc hlen hex
    have hk : k < weights.length := by
      simp only [List.length_cons] at hlen
      omega
    rw [lossLoop, List.getElem?_eq_getElem hk]
    rcases hex with ⟨t', ht', hio⟩
    rcases List.mem_cons.mp ht' with he | hmem
    · rw [← he, hio]
      simp [termDelta, Except.isOk, Except.toBool]
    · cases hd : termDelta c weights[k] (index_of_ones t) with
      | error e => simp [hd, Except.isOk, Except.toBool]
      | ok d =>
        simp only [hd]
        exact ih (k + 1) (acc + d)
          (by simp only [List.length_cons] at hlen; omega) ⟨t', hmem, hio⟩

/-- Claim C10 (confirmed): `Ising_loss` never inspects more than the first
two marked positions of a term — a term whose `index_of_ones` starts with
`a :: b :: rest` contributes `w * expectation_ps(z=[a, b])`, silently
ignoring `rest` — and when a term marks no qubit the call fails with an
out-of-range access instead of returning a value. -/
theorem C10_theorem :
    (∀ (c : CircuitE) (w : ℚ) (t : List ℚ) (a b : ℕ) (rest : List ℕ),
        index_of_ones t = a :: b :: rest →
        termDelta c w (index_of_ones t) = .ok (w * c.expZ [a, b])) ∧
    (∀ (c : CircuitE) (terms : List (List ℚ)) (weights : List ℚ),
        terms.length ≤ weights.length →
        (∃ t ∈ terms, index_of_ones t = []) →
        (Ising_loss c terms weights).isOk = false) := by
  constructor
  · intro c w t a b rest h
    rw [h]
    simp [termDelta]
  · intro c terms weights hlen hex
    exact lossLoop_err c weights terms 0 0 (by omega) hex

/-- Witness for C10_theorem: a term marking qubits 0, 1 and 2 contributes
only the correlator of qubits 0 and 1; a loss over a single all-zero term
fails. -/
theorem C10_theorem_witness :
    termDelta ⟨fun _ => 1⟩ 5 (index_of_ones [1, 1, 1]) =
        .ok (5 * CircuitE.expZ ⟨fun _ => 1⟩ [0, 1]) ∧
      (Ising_loss ⟨fun _ => 1⟩ [[0, 0]] [7]).isOk = false :=
  ⟨C10_theorem.1 ⟨fun _ => 1⟩ 5 [1, 1, 1] 0 1 [2]
      (by norm_num [index_of_ones, List.range_succ]),
    C10_theorem.2 ⟨fun _ => 1⟩ [[0, 0]] [7] (by norm_num)
      ⟨[0, 0], by simp, by norm_num [index_of_ones, List.range_succ]⟩⟩

/-- A `zipWith` against an index range degenerates to `map` when the indices
are unused. -/
theorem zipWith_const_range' {α β : Type _} (f : α → β) :
    ∀ (l : List α) (k : ℕ),
      List.zipWith (fun a _ => f a) l (List.range' k l.length) = l.map f := by
  intro l
  induction l with
  | nil => intro k; rfl
  | cons a t ih =>
    intro k
    simp only [List.length_cons, List.range'_succ, List.zipWith_cons_cons, List.map_cons]
    rw [ih (k + 1)]

/-- The indexed edge loop succeeds and pairs edge `i` with `paramzz[k+i]`
when the tensor is long enough. -/
theorem zzLoop_ok (p : List ℚ) :
    ∀ (edges : List (ℕ × ℕ)) (k : ℕ), k + edges.length ≤ p.length →
      zzLoop p edges k = .ok (List.zipWith
        (fun (e : ℕ × ℕ) i => GateOp.exp1zz e.1 e.2 (p.getD i 0))
        edges (List.range' k edges.length)) := by
  intro edges
  induction edges with
  | nil => intro k _; rfl
  | cons e es ih =>
    intro k hlen
    have hk : k < p.length := by
      simp only [List.length_cons] at hlen
      omega
    rw [zzLoop, List.getElem?_eq_getElem hk,
      ih (k + 1) (by simp only [List.length_cons] at hlen; omega)]
    simp only [List.length_cons, List.range'_succ, List.zipWith_cons_cons]
    rw [List.getD_eq_getElem?_getD, List.getElem?_eq_getElem hk]
    rfl

/-- The indexed node loop succeeds and pairs node `i` with `paramx[k+i]`
when the tensor is long enough. -/
theorem rxLoop_ok (p : List ℚ) :
    ∀ (nds : List ℕ) (k : ℕ), k + nds.length ≤ p.length →
      rxLoop p nds k = .ok (List.zipWith
        (fun (nd : ℕ) i => GateOp.rx nd (p.getD i 0))
        nds (List.range' k nds.length)) := by
  intro nds
  induction nds with
  | nil => intro k _; rfl
  | cons nd t ih =>
    intro k hlen
    have hk : k < p.length := by
      simp only [List.length_cons] at hlen
      omega
    rw [rxLoop, List.getElem?_eq_getElem hk,
      ih (k + 1) (by simp only [List.length_cons] at hlen; omega)]
    simp only [List.length_cons, List.range'_succ, List.zipWith_cons_cons]
    rw [List.getD_eq_getElem?_getD, List.getElem?_eq_getElem hk]
    rfl

/-- Claim C7 (confirmed): `QAOA_block` applies one ZZ rotation per edge (in
edge order) and then one X rotation per node (in node order); each of the
two angle tensors independently broadcasts its single scalar when its
element count is 1, and otherwise edge/node `i` consumes entry `i`. -/
theorem C7_theorem (c : CircuitC) (g : GraphM) (paramzz paramx : List ℚ)
    (hzz : sizen paramzz = 1 ∨ g.edges.length ≤ paramzz.length)
    (hx : sizen paramx = 1 ∨ g.nodes.length ≤ paramx.length) :
    QAOA_block c g paramzz paramx = .ok ⟨c.gates
      ++ List.zipWith (fun (e : ℕ × ℕ) i => GateOp.exp1zz e.1 e.2
            (if sizen paramzz = 1 then paramzz.headI else paramzz.getD i 0))
          g.edges (List.range g.edges.length)
      ++ List.zipWith (fun (nd : ℕ) i => GateOp.rx nd
            (if sizen paramx = 1 then paramx.headI else paramx.getD i 0))
          g.nodes (List.range g.nodes.length)⟩ := by
  rw [QAOA_block]
  have hzzRes : (if sizen paramzz = 1 then
        .ok (g.edges.map (fun e => GateOp.exp1zz e.1 e.2 paramzz.headI))
      else zzLoop paramzz g.edges 0) = .ok (List.zipWith
        (fun (e : ℕ × ℕ) i => GateOp.exp1zz e.1 e.2
          (if sizen paramzz = 1 then paramzz.headI else paramzz.getD i 0))
        g.edges (List.range g.edges.length)) := by
    by_cases h1 : sizen paramzz = 1
    · rw [if_pos h1]
      simp only [h1, if_pos]
      rw [List.range_eq_range', ← zipWith_const_range'
        (fun e : ℕ × ℕ => GateOp.exp1zz e.1 e.2 paramzz.headI) g.edges 0]
    · rw [if_neg h1]
      have hlen : g.edges.length ≤ paramzz.length := hzz.resolve_left h1
      rw [zzLoop_ok paramzz g.edges 0 (by omega)]
      simp only [h1, if_neg, List.range_eq_range']
      rfl
  have hxRes : (if sizen paramx = 1 then
        .ok (g.nodes.map (fun nd => GateOp.rx nd paramx.headI))
      else rxLoop paramx g.nodes 0) = .ok (List.zipWith
        (fun (nd : ℕ) i => GateOp.rx nd
          (if sizen paramx = 1 then paramx.headI else paramx.getD i 0))
        g.nodes (List.range g.nodes.length)) := by
    by_cases h1 : sizen paramx = 1
    · rw [if_pos h1]
      simp only [h1, if_pos]
      rw [List.range_eq_range', ← zipWith_const_range'
        (fun nd : ℕ => GateOp.rx nd paramx.headI) g.nodes 0]
    · rw [if_neg h1]
      have hlen : g.nodes.length ≤ paramx.length := hx.resolve_left h1
      rw [rxLoop_ok paramx g.nodes 0 (by omega)]
      simp only [h1, if_neg, List.range_eq_range']
      rfl
  rw [hzzRes, hxRes]

/-- Closed form of the optimization-loop trace: the loop starting at
counter `i` with `m` iterations left emits, for each `j` in
`[i, i+m)` in order, one loss-and-gradient evaluation, then one optimizer
update, then (iff `j % 100 == 0`) one loss print. -/
theorem QAOAloop_trace (step : TensorM → ℚ × TensorM) (upd : TensorM → TensorM → TensorM) :
    ∀ (m i : ℕ) (params : TensorM),
      (QAOAloop step upd m i params).1 =
        (List.range' i m).flatMap
          (fun j => [Ev.lossGradEval, Ev.optStep] ++ (if j % 100 = 0 then [Ev.lossPrint] else [])) := by
  intro m
  induction m with
  | zero => intro i params; rfl
  | succ m ih =>
    intro i params
    rw [QAOAloop, List.range'_succ, List.flatMap_cons]
    rw [ih]

/-- The loop preserves the parameter shape when the optimizer update does. -/
theorem QAOAloop_shape (step : TensorM → ℚ × TensorM) (upd : TensorM → TensorM → TensorM)
    (hupd : ∀ g p, (upd g p).shape = p.shape) :
    ∀ (m i : ℕ) (params : TensorM),
      ((QAOAloop step upd m i params).2).shape = params.shape := by
  intro m
  induction m with
  | zero => intro i params; rfl
  | succ m ih =>
    intro i params
    rw [QAOAloop]
    exact (ih (i + 1) _).trans (hupd _ _)

/-- Count of loss-and-gradient evaluations in the closed-form loop trace. -/
theorem loopTrace_count_eval :
    ∀ (m i : ℕ),
      ((List.range' i m).flatMap
        (fun j => [Ev.lossGradEval, Ev.optStep]
          ++ (if j % 100 = 0 then [Ev.lossPrint] else []))).count Ev.lossGradEval = m := by
  intro m
  induction m with
  | zero => intro i; rfl
  | succ m ih =>
    intro i
    rw [List.range'_succ, List.flatMap_cons, List.count_append]
    rw [ih (i + 1)]
    by_cases h : i % 100 = 0 <;> simp [h, List.count_append, List.count_cons] <;> omega

/-- Count of optimizer updates in the closed-form loop trace. -/
theorem loopTrace_count_upd :
    ∀ (m i : ℕ),
      ((List.range' i m).flatMap
        (fun j => [Ev.lossGradEval, Ev.optStep]
          ++ (if j % 100 = 0 then [Ev.lossPrint] else []))).count Ev.optStep = m := by
  intro m
  induction m with
  | zero => intro i; rfl
  | succ m ih =>
    intro i
    rw [List.range'_succ, List.flatMap_cons, List.count_append]
    rw [ih (i + 1)]
    by_cases h : i % 100 = 0 <;> simp [h, List.count_append, List.count_cons] <;> omega

/-- Counterexample to claim C6 as stated: the 0×0 matrix is square, yet
`QUBO_QAOA` with 5 requested iterations performs no loss-and-gradient
evaluation and returns no parameter tensor — it aborts with the
`IndexError` raised inside `QUBO_to_Ising` (the row access `Q[0]`) before
the loop is ever reached, so the trace is empty. -/
theorem C6_counterexample :
    QUBO_QAOA_run (some Bex) ⟨0, 0, fun _ _ => 0⟩ (fun _ _ _ _ => 0) 1 5 false 10 =
      ([], .error .indexError) := rfl

/-- Claim C6 (amended: the square matrix must have at least one row — on the
0×0 square matrix `QUBO_QAOA` crashes inside `QUBO_to_Ising` before the
loop).  With a backend bound, for every such square `Q`, every
`nlayers ≥ 1` and every number of iterations, `QUBO_QAOA` performs exactly
`iterations` loss-and-gradient evaluations, each followed by one optimizer
update, with no convergence-based early exit (the trace is the full closed
form regardless of loss values), and returns a parameter tensor of shape
`[2*nlayers]`, or `[ncircuits, 2*nlayers]` when the vvag flag is set. -/
theorem C6_theorem (b : BackendM) (Q : NpMat)
    (ansatz : ℕ → List (List ℚ) → List ℚ → TensorM → ℚ)
    (nlayers iterations : ℕ) (vvag : Bool) (ncircuits : ℕ)
    (hrandn : ∀ s σ, (b.randn s σ).shape = s)
    (hupd : ∀ g p, (b.optUpdate g p).shape = p.shape)
    (hQ : 1 ≤ Q.rows) (hsq : Q.cols = Q.rows) (hnl : 1 ≤ nlayers) :
    ∃ p : TensorM,
      QUBO_QAOA_run (some b) Q ansatz nlayers iterations vvag ncircuits =
        (([Ev.isingConv, Ev.paramInit] ++ (if vvag then [Ev.paramInit] else []))
            ++ (List.range' 0 iterations).flatMap
              (fun j => [Ev.lossGradEval, Ev.optStep]
                ++ (if j % 100 = 0 then [Ev.lossPrint] else [])),
          .ok p) ∧
      p.shape = (if vvag then [ncircuits, 2 * nlayers] else [2 * nlayers]) ∧
      (QUBO_QAOA_run (some b) Q ansatz nlayers iterations vvag ncircuits).1.count
          Ev.lossGradEval = iterations ∧
      (QUBO_QAOA_run (some b) Q ansatz nlayers iterations vvag ncircuits).1.count
          Ev.optStep = iterations := by
  have hrun : QUBO_QAOA_run (some b) Q ansatz nlayers iterations vvag ncircuits =
      (([Ev.isingConv, Ev.paramInit] ++ (if vvag then [Ev.paramInit] else []))
          ++ (List.range' 0 iterations).flatMap
            (fun j => [Ev.lossGradEval, Ev.optStep]
              ++ (if j % 100 = 0 then [Ev.lossPrint] else [])),
        .ok (QAOAloop
          (b.jit (if vvag then b.vvag (b.valueAndGrad
              (ansatz nlayers (specTerms Q.rows) (specWeights Q))) else
            b.valueAndGrad (ansatz nlayers (specTerms Q.rows) (specWeights Q))))
          b.optUpdate iterations 0
          (if vvag then b.randn [ncircuits, 2 * nlayers] (1 / 10) else
            b.randn [2 * nlayers] (1 / 2))).2) := by
    have hrun0 : QUBO_QAOA_run (some b) Q ansatz nlayers iterations vvag ncircuits =
        (([Ev.isingConv, Ev.paramInit] ++ (if vvag then [Ev.paramInit] else []))
            ++ (QAOAloop
              (b.jit (if vvag then b.vvag (b.valueAndGrad
                  (ansatz nlayers (specTerms Q.rows) (specWeights Q))) else
                b.valueAndGrad (ansatz nlayers (specTerms Q.rows) (specWeights Q))))
              b.optUpdate iterations 0
              (if vvag then b.randn [ncircuits, 2 * nlayers] (1 / 10) else
                b.randn [2 * nlayers] (1 / 2))).1,
          .ok (QAOAloop
            (b.jit (if vvag then b.vvag (b.valueAndGrad
                (ansatz nlayers (specTerms Q.rows) (specWeights Q))) else
              b.valueAndGrad (ansatz nlayers (specTerms Q.rows) (specWeights Q))))
            b.optUpdate iterations 0
            (if vvag then b.randn [ncircuits, 2 * nlayers] (1 / 10) else
              b.randn [2 * nlayers] (1 / 2))).2) := by
      rw [QUBO_QAOA_run, QUBO_to_Ising_ok Q (by omega) hsq]
      rfl
    rw [hrun0, QAOAloop_trace]
  refine ⟨_, hrun, ?_, ?_, ?_⟩
  · rw [QAOAloop_shape _ _ hupd]
    by_cases hv : vvag <;> simp [hv, hrandn]
  · rw [hrun]
    simp only [List.count_append]
    rw [loopTrace_count_eval iterations 0]
    by_cases hv : vvag <;> simp [hv, List.count_cons, List.count_nil]
  · rw [hrun]
    simp only [List.count_append]
    rw [loopTrace_count_upd iterations 0]
    by_cases hv : vvag <;> simp [hv, List.count_cons, List.count_nil]

/-- Witness for C6_theorem: the 2×2 example, one layer, two iterations. -/
theorem C6_theorem_witness :
    ∃ p : TensorM,
      QUBO_QAOA_run (some Bex) Qex (fun _ _ _ _ => 0) 1 2 false 10 =
        (([Ev.isingConv, Ev.paramInit] ++ (if false then [Ev.paramInit] else []))
            ++ (List.range' 0 2).flatMap
              (fun j => [Ev.lossGradEval, Ev.optStep]
                ++ (if j % 100 = 0 then [Ev.lossPrint] else [])),
          .ok p) ∧
      p.shape = (if false then [10, 2 * 1] else [2 * 1]) ∧
      (QUBO_QAOA_run (some Bex) Qex (fun _ _ _ _ => 0) 1 2 false 10).1.count
          Ev.lossGradEval = 2 ∧
      (QUBO_QAOA_run (some Bex) Qex (fun _ _ _ _ => 0) 1 2 false 10).1.count
          Ev.optStep = 2 :=
  C6_theorem Bex Qex (fun _ _ _ _ => 0) 1 2 false 10
    (fun _ _ => rfl) (fun _ _ => rfl) (by decide) rfl (by decide)

/-- Counterexample to claim C3 as stated: with `K` unbound, `QUBO_QAOA` does
print the hint, but it then performs the Ising conversion (`isingConv` is in
the trace) and aborts with an unhandled `NameError`; `print_result_prob`
likewise prints the hint and then aborts with an unhandled `NameError`.  The
claim's "performs no computation … no Ising conversion … and there is no
unhandled crash" is false. -/
theorem C3_counterexample :
    QUBO_QAOA_run none Qex (fun _ _ _ _ => 0) 1 5 false 10 =
        ([Ev.msg, Ev.isingConv], .error .nameError) ∧
      print_result_prob_run none ⟨1, [1 / 2, 1 / 2]⟩ false false =
        ([Ev.msg], .error .nameError) := by
  constructor
  · rw [QUBO_QAOA_run, QUBO_to_Ising_ok Qex (by decide) rfl]
    rfl
  · rfl

/-- Claim C3 (amended): calling a backend-dependent function with `K` unbound
reports the informative hint, but computation is not prevented: `QUBO_QAOA`
still performs the Ising conversion and then aborts with an unhandled
`NameError` at the first use of `K` — before any parameter initialization,
optimization step, or probability query — and `print_result_prob` aborts
with an unhandled `NameError` before querying probabilities.  No automatic
fallback backend is chosen. -/
theorem C3_theorem :
    (∀ (Q : NpMat) (ansatz : ℕ → List (List ℚ) → List ℚ → TensorM → ℚ)
        (nlayers iterations : ℕ) (vvag : Bool) (ncircuits : ℕ)
        (terms : List (List ℚ)) (weights : List ℚ) (offset : ℚ),
        QUBO_to_Ising Q = .ok (terms, weights, offset) →
        QUBO_QAOA_run none Q ansatz nlayers iterations vvag ncircuits =
          ([Ev.msg, Ev.isingConv], .error .nameError)) ∧
    (∀ (c : CircuitM) (wrap reverse : Bool),
        print_result_prob_run none c wrap reverse = ([Ev.msg], .error .nameError)) := by
  constructor
  · intro Q ansatz nlayers iterations vvag ncircuits terms weights offset hok
    rw [QUBO_QAOA_run, hok]
    rfl
  · intro c wrap reverse
    rfl

/-- Witness for C3_theorem at the 2×2 example and a 1-qubit circuit. -/
theorem C3_theorem_witness :
    QUBO_QAOA_run none Qex (fun _ _ _ _ => 0) 1 5 false 10 =
        ([Ev.msg, Ev.isingConv], .error .nameError) ∧
      print_result_prob_run none ⟨1, [1 / 2, 1 / 2]⟩ true true =
        ([Ev.msg], .error .nameError) :=
  ⟨C3_theorem.1 Qex (fun _ _ _ _ => 0) 1 5 false 10 _ _ _
      (QUBO_to_Ising_ok Qex (by decide) rfl),
    C3_theorem.2 ⟨1, [1 / 2, 1 / 2]⟩ true true⟩

/-- State rows pass the entry filter. -/
theorem filter_isEntry_map_entry {α : Type _} (f : α → List Bool) (g : α → ℚ) (l : List α) :
    (l.map (fun i => PLine.entry (f i) (g i))).filter PLine.isEntry =
      l.map (fun i => PLine.entry (f i) (g i)) := by
  induction l with
  | nil => rfl
  | cons a t ih => simp [PLine.isEntry, ih]

/-- The probability order is a permutation of `range(len(probs))`. -/
theorem probIdxOrder_length (c : CircuitM) (reverse : Bool) :
    (probIdxOrder c reverse).length = c.probs.length := by
  rw [probIdxOrder]
  by_cases h : reverse = true <;>
    simp [h, argsortStable, List.length_insertionSort]

/-- There are `2^n` basis states. -/
theorem statesList_length (n : ℕ) : (statesList n).length = 2 ^ n := by
  simp [statesList]

/-- Claim C4 evaluated against the code (the probability half is a bug):
whenever the wrap-mode index accesses succeed at all — i.e. the circuit has
at least 4 probability entries (and no more than `2^n`, so the state lookup
succeeds) — `print_result_prob` prints exactly 7 state entries, not 8: the
top 4, then only 3 of the bottom entries, because `for i in range(-4, -1)`
stops at index `-2` and skips the last row.  (With fewer than 4 entries the
function instead raises `IndexError`, so it never prints 8.)  The cost
report does print at most 8 state entries. -/
theorem C4_theorem :
    (∀ (c : CircuitM) (reverse : Bool),
        4 ≤ c.probs.length → c.probs.length ≤ 2 ^ c.nqubits →
        ∃ lines, print_result_prob c true reverse = .ok lines ∧
          (lines.filter PLine.isEntry).length = 7) ∧
    (∀ (c : CircuitM) (Q : NpMat) (reverse : Bool),
        (print_result_cost c Q true reverse).length ≤ 8) := by
  constructor
  · intro c reverse h4 hle
    have horder := probIdxOrder_length c reverse
    have hg1 : ¬(statesList c.nqubits).length < (probIdxOrder c reverse).length := by
      rw [statesList_length, horder]
      omega
    have hg2 : ¬((probIdxOrder c reverse).map
        (fun k => (statesList c.nqubits).getD k [])).length < 4 := by
      rw [List.length_map, horder]
      omega
    rw [print_result_prob, if_neg hg1, if_neg (by simp), if_neg hg2]
    refine ⟨_, rfl, ?_⟩
    rw [List.filter_append, List.filter_append,
      filter_isEntry_map_entry, filter_isEntry_map_entry]
    simp [PLine.isEntry]
  · intro c Q reverse
    rw [print_result_cost]
    simp

/-- Witness for C4_theorem: a 2-qubit circuit with 4 probability entries. -/
theorem C4_theorem_witness :
    4 ≤ (CircuitM.probs ⟨2, [0, 0, 0, 1]⟩).length ∧
      (CircuitM.probs ⟨2, [0, 0, 0, 1]⟩).length ≤ 2 ^ CircuitM.nqubits ⟨2, [0, 0, 0, 1]⟩ ∧
      ∃ lines, print_result_prob ⟨2, [0, 0, 0, 1]⟩ true false = .ok lines ∧
        (lines.filter PLine.isEntry).length = 7 :=
  ⟨by decide, by decide, C4_theorem.1 ⟨2, [0, 0, 0, 1]⟩ false (by decide) (by decide)⟩

/-- Claim C9 (confirmed): `print_result_cost` reads nothing from its circuit
argument but the qubit count — whenever `c._nqubits = len(Q)`, its rows are
exactly those of `print_Q_cost(Q, wrap, reverse)`, whatever the circuit's
gates or state. -/
theorem C9_theorem (c : CircuitM) (Q : NpMat) (wrap reverse : Bool)
    (h : c.nqubits = Q.rows) :
    print_result_cost c Q wrap reverse = print_Q_cost Q wrap reverse := by
  rw [print_result_cost, print_Q_cost, h]

/-- Witness for C9_theorem: a 2-qubit circuit against the 2×2 example. -/
theorem C9_theorem_witness :
    CircuitM.nqubits ⟨2, []⟩ = Qex.rows ∧
      print_result_cost ⟨2, []⟩ Qex false false = print_Q_cost Qex false false :=
  ⟨rfl, C9_theorem ⟨2, []⟩ Qex false false rfl⟩

/-- Counterexample to claim C5 as stated: on a 1-qubit circuit whose two
states have equal probability 1/2, `print_result_prob` with
`reverse=False` prints state "1" before state "0" — the reversal
`np.argsort(probs)[::-1]` reverses ties too, so equal-probability states
appear in reversed natural order, not natural order. -/
theorem C5_counterexample :
    (CircuitM.probs ⟨1, [1 / 2, 1 / 2]⟩).map round4 =
        [round4 (1 / 2), round4 (1 / 2)] ∧
      probIdxOrder ⟨1, [1 / 2, 1 / 2]⟩ false = [1, 0] := by
  constructor
  · rfl
  · simp [probIdxOrder, argsortStable, List.insertionSort, List.orderedInsert]

/-- `orderedInsert` only compares the inserted element with list elements:
relations agreeing there insert identically. -/
theorem orderedInsert_congr {α : Type _} (r r' : α → α → Prop)
    [DecidableRel r] [DecidableRel r'] (a : α) :
    ∀ l : List α, (∀ y ∈ l, (r a y ↔ r' a y)) →
      l.orderedInsert r a = l.orderedInsert r' a := by
  intro l
  induction l with
  | nil => intro _; rfl
  | cons b t ih =>
    intro hmem
    simp only [List.orderedInsert]
    by_cases h : r a b
    · rw [if_pos h, if_pos ((hmem b (List.mem_cons_self b t)).mp h)]
    · rw [if_neg h, if_neg (fun h' => h ((hmem b (List.mem_cons_self b t)).mpr h')),
        ih (fun y hy => hmem y (List.mem_cons_of_mem b hy))]

/-- `insertionSort` under two relations that agree on every ordered pair of
the input list produces the same output. -/
theorem insertionSort_congr {α : Type _} (r r' : α → α → Prop)
    [DecidableRel r] [DecidableRel r'] :
    ∀ l : List α, List.Pairwise (fun a b => (r a b ↔ r' a b)) l →
      l.insertionSort r = l.insertionSort r' := by
  intro l
  induction l with
  | nil => intro _; rfl
  | cons a t ih =>
    intro hp
    rcases List.pairwise_cons.mp hp with ⟨hhead, htail⟩
    simp only [List.insertionSort]
    rw [ih htail]
    apply orderedInsert_congr
    intro y hy
    exact hhead y ((List.perm_insertionSort r' t).mem_iff.mp hy)

/-- The stable ascending argsort coincides with sorting by the
(key, index) lexicographic order. -/
theorem argsortStable_eq_lex (p : List ℚ) :
    argsortStable p =
      List.insertionSort (keyLexAsc (fun i => p.getD i 0)) (List.range p.length) := by
  rw [argsortStable]
  apply insertionSort_congr
  apply (List.pairwise_lt_range p.length).imp
  intro a b hab
  rw [keyLexAsc]
  constructor
  · intro h
    rcases lt_or_eq_of_le h with h' | h'
    · exact Or.inl h'
    · exact Or.inr ⟨h', le_of_lt hab⟩
  · intro h
    rcases h with h' | ⟨h', _⟩
    · exact le_of_lt h'
    · exact le_of_eq h'

/-- The stable cost sort coincides with sorting by the corresponding
lexicographic order (ascending and descending variants). -/
theorem costOrderIdx_eq_lex (Q : NpMat) (n : ℕ) :
    costOrderIdx Q n false =
        List.insertionSort (keyLexAsc (costOf Q n)) (List.range (2 ^ n)) ∧
      costOrderIdx Q n true =
        List.insertionSort (keyLexDesc (costOf Q n)) (List.range (2 ^ n)) := by
  constructor
  · rw [costOrderIdx, if_neg (by simp)]
    apply insertionSort_congr
    apply (List.pairwise_lt_range (2 ^ n)).imp
    intro a b hab
    rw [keyLexAsc]
    constructor
    · intro h
      rcases lt_or_eq_of_le h with h' | h'
      · exact Or.inl h'
      · exact Or.inr ⟨h', le_of_lt hab⟩
    · intro h
      rcases h with h' | ⟨h', _⟩
      · exact le_of_lt h'
      · exact le_of_eq h'
  · rw [costOrderIdx, if_pos rfl]
    apply insertionSort_congr
    apply (List.pairwise_lt_range (2 ^ n)).imp
    intro a b hab
    rw [keyLexDesc]
    constructor
    · intro h
      rcases lt_or_eq_of_le h with h' | h'
      · exact Or.inl h'
      · exact Or.inr ⟨h'.symm, le_of_lt hab⟩
    · intro h
      rcases h with h' | ⟨h', _⟩
      · exact le_of_lt h'
      · exact le_of_eq h'.symm

/-- Claim C5 (amended): the cost reports break ties by the natural state
enumeration for both values of the reverse flag (their order is sorted by
(cost, state-index) lexicographically, ascending resp. descending in cost);
the probability report does so only when `reverse=True` (sorted by
(rounded probability, state-index) lexicographically); with
`reverse=False` its order is the exact reversal of the `reverse=True`
order, so equal-probability states appear in *reversed* natural order. -/
theorem C5_theorem (c : CircuitM) (Q : NpMat) (n : ℕ) :
    ((costOrderIdx Q n false).Sorted (keyLexAsc (costOf Q n)) ∧
        (costOrderIdx Q n true).Sorted (keyLexDesc (costOf Q n))) ∧
      ((probIdxOrder c true).Sorted (keyLexAsc (fun i => (c.probs.map round4).getD i 0)) ∧
        probIdxOrder c false = (probIdxOrder c true).reverse) := by
  refine ⟨⟨?_, ?_⟩, ?_, ?_⟩
  · rw [(costOrderIdx_eq_lex Q n).1]
    exact List.sorted_insertionSort _ _
  · rw [(costOrderIdx_eq_lex Q n).2]
    exact List.sorted_insertionSort _ _
  · have h : probIdxOrder c true = argsortStable (c.probs.map round4) := by
      rw [probIdxOrder, if_pos rfl, List.reverse_reverse]
    rw [h, argsortStable_eq_lex]
    have hlen : (c.probs.map round4).length = c.probs.length := List.length_map _ _
    rw [hlen]
    exact List.sorted_insertionSort _ _
  · rw [probIdxOrder, probIdxOrder, if_pos rfl, if_neg (by simp), List.reverse_reverse]

/-- Witness for C7_theorem: a 3-node path graph, a shared ZZ angle
(size-1 tensor) and one X angle per node. -/
theorem C7_theorem_witness :
    QAOA_block ⟨[]⟩ ⟨[(0, 1), (1, 2)], [0, 1, 2]⟩ [3] [1, 2, 5] =
      .ok ⟨CircuitC.gates ⟨[]⟩
        ++ List.zipWith (fun (e : ℕ × ℕ) i => GateOp.exp1zz e.1 e.2
              (if sizen [3] = 1 then List.headI [3] else List.getD [3] i 0))
            [(0, 1), (1, 2)] (List.range (List.length [(0, 1), (1, 2)]))
        ++ List.zipWith (fun (nd : ℕ) i => GateOp.rx nd
              (if sizen [1, 2, 5] = 1 then List.headI [1, 2, 5]
                else List.getD [1, 2, 5] i 0))
            [0, 1, 2] (List.range (List.length [0, 1, 2]))⟩ :=
  C7_theorem ⟨[]⟩ ⟨[(0, 1), (1, 2)], [0, 1, 2]⟩ [3] [1, 2, 5]
    (Or.inl (by decide)) (Or.inr (by decide))
